import Mathlib

/-!
Verification development for the cbr-to-pdf repository.

The repository contains two Express server variants plus a browser UI:
* a disk-backed variant (two near-identical copies) with `detectArchiveType`,
  `getArchiveFileList`, `extractImageBuffer`, a preview cache, a delete route
  and a `processJob` conversion loop;
* a memory-backed variant with `isValidRAR` / `isValidZIP`,
  `extractImagesFromArchive`, `naturalSort` and `createPDFFromImages`.

Strings (file names, archive entry names) are modelled as lists of Unicode
code points (`List Nat`); byte buffers as lists of byte values (`List Nat`).
JavaScript `toLowerCase` is modelled on the ASCII range, which covers every
character the comparisons in this code distinguish.  PDF geometry uses `ℚ`
for the IEEE doubles of the source, which is exact for the arithmetic the
layout code performs.
-/

/-- Code points of a Lean string literal, used to write concrete test inputs. -/
def strCodes (s : String) : List Nat := s.data.map Char.toNat

/-- ASCII `toLowerCase` on one code point (JS `String.prototype.toLowerCase`
restricted to the characters this repository's comparisons distinguish). -/
def lowerN (c : Nat) : Nat := if 65 ≤ c ∧ c ≤ 90 then c + 32 else c

/-- Lowercase an entire string. -/
def lowerS (s : List Nat) : List Nat := s.map lowerN

/-- `name.split(/[\\\/]/).pop()`: the part of a path after the last `/` or `\`. -/
def basenameL (s : List Nat) : List Nat :=
  (s.reverse.takeWhile (fun c => decide (c ≠ 47 ∧ c ≠ 92))).reverse

/-- Node's `path.extname` on a basename: the suffix from the last `.`,
empty when there is no dot or the only dot leads the name (dotfiles). -/
def extnameL (b : List Nat) : List Nat :=
  match b.reverse.dropWhile (fun c => decide (c ≠ 46)) with
  | [] => []
  | [_] => []
  | _ :: _ :: _ => 46 :: (b.reverse.takeWhile (fun c => decide (c ≠ 46))).reverse

/-- `path.extname(name).toLowerCase()` as used by the upload filters and the
archive classification. -/
def extLowerL (s : List Nat) : List Nat := (extnameL (basenameL s)).map lowerN

/-- The regex `/\.(jpg|jpeg|png|gif|webp)$/i`: case-insensitive image-extension
test applied to archive entry names. -/
def isImageName (s : List Nat) : Bool :=
  [strCodes ".jpg", strCodes ".jpeg", strCodes ".png",
   strCodes ".gif", strCodes ".webp"].any (fun suf => suf.isSuffixOf (lowerS s))

/-- ZIP local-file-header signature `50 4B 03 04`. -/
def zipSigL : List Nat := [80, 75, 3, 4]

/-- RAR signature `52 61 72 21 1A 07 00`. -/
def rarSigL : List Nat := [82, 97, 114, 33, 26, 7, 0]

/-- Archive classification outcomes appearing in the source. -/
inductive ArchType where
  | zip | rar | rarEncrypted | unknown
deriving DecidableEq, Repr

/-- Memory-backed variant, `isValidRAR`: `buffer.length < 7` fails, otherwise
the first 7 bytes must equal the RAR signature. -/
def isValidRAR (buf : List Nat) : Bool :=
  !(buf.length < 7) && (buf.take 7 == rarSigL)

/-- Memory-backed variant, `isValidZIP`: `buffer.length < 4` fails, otherwise
bytes 0..3 must be `50 4B 03 04`. -/
def isValidZIP (buf : List Nat) : Bool :=
  !(buf.length < 4) &&
    (buf[0]? == some 80 && buf[1]? == some 75 &&
     buf[2]? == some 3 && buf[3]? == some 4)

/-- Disk-backed variant, `detectArchiveType`: `length > 4` plus a two-byte
`PK` check classifies zip; `length > 7` plus the 7-byte signature classifies
rar; everything else falls back to zip. -/
def detectArchiveType (buf : List Nat) : ArchType :=
  if 4 < buf.length ∧ buf[0]? = some 80 ∧ buf[1]? = some 75 then .zip
  else if 7 < buf.length ∧ buf.take 7 = rarSigL then .rar
  else .zip

/-- Memory-backed variant, the archive-kind decision of
`extractImagesFromArchive` (magic bytes first, then extension; the final
else-branch throws `Cannot determine archive type`, modelled as `unknown`). -/
def classifyArchive (buf : List Nat) (name : List Nat) : ArchType :=
  if isValidRAR buf then .rar
  else if isValidZIP buf then .zip
  else if extLowerL name = strCodes ".cbr" then .rar
  else if extLowerL name = strCodes ".cbz" then .zip
  else .unknown

/-- Both variants' multer `fileFilter`: accept only `.cbr` / `.cbz`
extensions (case-insensitive), otherwise the upload errors out. -/
def fileFilterAccepts (name : List Nat) : Bool :=
  extLowerL name == strCodes ".cbr" || extLowerL name == strCodes ".cbz"

/-! ### Natural sort (memory-backed variant, `naturalSort`) -/

/-- The regex class `\d`. -/
def isDigitN (c : Nat) : Bool := decide (48 ≤ c ∧ c ≤ 57)

/-- `fileA.match(/(\d+|\D+)/g)`: decompose a string into maximal alternating
runs of digits and non-digits (`null` on the empty string becomes `[]`).
Written by grouping from the right so it is structurally recursive; the
theorem `decomposeRuns_cons` certifies the usual take-the-longest-run
unfolding of the regex. -/
def decomposeRuns : List Nat → List (List Nat)
  | [] => []
  | c :: cs =>
    match decomposeRuns cs with
    | (d :: r) :: rs =>
      if isDigitN c == isDigitN d then (c :: d :: r) :: rs
      else [c] :: (d :: r) :: rs
    | _ => [[c]]

/-- The regex `/^\d+$/`: a nonempty all-digit run. -/
def isDigitsRun (r : List Nat) : Bool := !r.isEmpty && r.all isDigitN

/-- `parseInt` on an all-digit run. -/
def digitsVal (r : List Nat) : Nat := r.foldl (fun n c => n * 10 + (c - 48)) 0

/-- `partA.localeCompare(partB)` modelled as code-point lexicographic
comparison (the inputs are already lowercased where this is used). -/
def lexCmp : List Nat → List Nat → Ordering
  | [], [] => .eq
  | [], _ :: _ => .lt
  | _ :: _, [] => .gt
  | a :: as, b :: bs =>
    match compare a b with
    | .eq => lexCmp as bs
    | o => o

/-- One iteration of `naturalSort`'s run loop: numeric comparison when both
runs are all-digit, string comparison otherwise; `.eq` means the loop
continues with the next run. -/
def partCmp (x y : List Nat) : Ordering :=
  if isDigitsRun x && isDigitsRun y then compare (digitsVal x) (digitsVal y)
  else lexCmp x y

/-- Tail of the run loop once the left side is exhausted: the left part is
the empty string from here on. -/
def runsCmpR : List (List Nat) → Ordering
  | [] => .eq
  | y :: ys =>
    match partCmp [] y with
    | .eq => runsCmpR ys
    | o => o

/-- Tail of the run loop once the right side is exhausted. -/
def runsCmpL : List (List Nat) → Ordering
  | [] => .eq
  | x :: xs =>
    match partCmp x [] with
    | .eq => runsCmpL xs
    | o => o

/-- The run loop of `naturalSort`: up to the longer run list, with the
missing side treated as the empty string, returning the first non-tie. -/
def runsCmp : List (List Nat) → List (List Nat) → Ordering
  | [], ys => runsCmpR ys
  | x :: xs, [] => runsCmpL (x :: xs)
  | x :: xs, y :: ys =>
    match partCmp x y with
    | .eq => runsCmp xs ys
    | o => o

/-- Memory-backed variant, `naturalSort(a, b)`: the two names are reduced to
their lowercased basenames, decomposed into runs and compared run-by-run. -/
def naturalSortCmp (a b : List Nat) : Ordering :=
  runsCmp (decomposeRuns (lowerS (basenameL a))) (decomposeRuns (lowerS (basenameL b)))

/-- Insert into a list already sorted by the comparator (used to model
`Array.prototype.sort(naturalSort)`). -/
def insertCmp (cmp : α → α → Ordering) (x : α) : List α → List α
  | [] => [x]
  | y :: ys => if cmp x y = .gt then y :: insertCmp cmp x ys else x :: y :: ys

/-- Comparison sort by a comparator, modelling `Array.prototype.sort`. -/
def sortCmp (cmp : α → α → Ordering) : List α → List α
  | [] => []
  | x :: xs => insertCmp cmp x (sortCmp cmp xs)

/-- `imageFiles.sort(naturalSort)`. -/
def sortNat (l : List (List Nat)) : List (List Nat) := sortCmp naturalSortCmp l

/-- Spec-side run comparison, following the spec's words: digit runs compare
as integers, non-digit runs compare lexicographically case-insensitively. -/
def specPartCmp (x y : List Nat) : Ordering :=
  if isDigitsRun x && isDigitsRun y then compare (digitsVal x) (digitsVal y)
  else lexCmp (lowerS x) (lowerS y)

/-- Spec-side analogue of `runsCmpR`. -/
def specRunsCmpR : List (List Nat) → Ordering
  | [] => .eq
  | y :: ys =>
    match specPartCmp [] y with
    | .eq => specRunsCmpR ys
    | o => o

/-- Spec-side analogue of `runsCmpL`. -/
def specRunsCmpL : List (List Nat) → Ordering
  | [] => .eq
  | x :: xs =>
    match specPartCmp x [] with
    | .eq => specRunsCmpL xs
    | o => o

/-- Spec-side run loop: identical shape to `runsCmp`, missing trailing runs
treated as the empty string. -/
def specRunsCmp : List (List Nat) → List (List Nat) → Ordering
  | [], ys => specRunsCmpR ys
  | x :: xs, [] => specRunsCmpL (x :: xs)
  | x :: xs, y :: ys =>
    match specPartCmp x y with
    | .eq => specRunsCmp xs ys
    | o => o

/-- Spec-side natural comparison of two entry names, following the spec's
words: "entry names are decomposed into alternating runs of digits and
non-digits" and compared run-by-run (no basename step). -/
def specNaturalCmp (a b : List Nat) : Ordering :=
  specRunsCmp (decomposeRuns a) (decomposeRuns b)

/-! ### Archive listing -/

/-- An `adm-zip` entry: `entryName` is the full path, `name` its basename. -/
structure ZipEntry where
  entryName : List Nat
  isDirectory : Bool

/-- A `node-unrar-js` file header with the flags this code reads. -/
structure RarHeader where
  name : List Nat
  encrypted : Bool
  directory : Bool

/-- Disk-backed variants' ZIP scan: keep non-directory entries whose
`entryName` matches the image-extension regex. -/
def zipImages000 (es : List ZipEntry) : List (List Nat) :=
  (es.filter (fun e => !e.isDirectory && isImageName e.entryName)).map (·.entryName)

/-- Memory-backed variant's ZIP scan (`extractImagesFromZIP`): keep
non-directory entries whose basename (`entry.name`) matches, and record the
basename. -/
def zipImages001 (es : List ZipEntry) : List (List Nat) :=
  (es.filter (fun e => !e.isDirectory && isImageName (basenameL e.entryName))).map
    (fun e => basenameL e.entryName)

/-- Memory-backed variant's RAR scan (`extractImagesFromRAR`): keep headers
whose name matches the image regex (no directory or encryption check). -/
def rarImages001 (hs : List RarHeader) : List (List Nat) :=
  (hs.filter (fun h => isImageName h.name)).map (·.name)

/-- The RAR header loop of the first disk-backed `getArchiveFileList`:
return `none` as soon as a header is flagged encrypted (discarding anything
collected so far), otherwise collect non-directory image names in order. -/
def rarScanEnc : List RarHeader → Option (List (List Nat))
  | [] => some []
  | h :: t =>
    if h.encrypted then none
    else
      match rarScanEnc t with
      | none => none
      | some l => some (if !h.directory && isImageName h.name then h.name :: l else l)

/-- First disk-backed `getArchiveFileList` (the copy with the immediate
`rar-encrypted` return).  `zipRes`/`rarRes` are the listing results of the
two archive libraries; `none` models the library throwing. -/
def getArchiveFileListV1 (buf : List Nat) (zipRes : Option (List ZipEntry))
    (rarRes : Option (List RarHeader)) : ArchType × List (List Nat) :=
  let t := detectArchiveType buf
  let zipImgs : List (List Nat) :=
    if t = .zip then
      match zipRes with
      | some es => zipImages000 es
      | none => []
    else []
  if t = .zip ∧ zipImgs ≠ [] then (.zip, sortNat zipImgs)
  else
    match rarRes with
    | some hs =>
      match rarScanEnc hs with
      | none => (.rarEncrypted, [])
      | some imgs => if imgs ≠ [] then (.rar, sortNat imgs) else (.unknown, [])
    | none => (.unknown, [])

/-- The RAR loop of the second disk-backed `getArchiveFileList`: encryption
only flips the type, collection continues. -/
def rarTypeAndImages (hs : List RarHeader) : ArchType × List (List Nat) :=
  (if hs.any (·.encrypted) then .rarEncrypted else .rar,
   (hs.filter (fun h => !h.directory && isImageName h.name)).map (·.name))

/-- Second disk-backed `getArchiveFileList` (extension-driven, with a ZIP
fallback and a trailing RAR magic-byte recheck). -/
def getArchiveFileListV2 (buf name : List Nat) (rarRes : Option (List RarHeader))
    (zipRes : Option (List ZipEntry)) : ArchType × List (List Nat) :=
  let p1 : ArchType × List (List Nat) :=
    if extLowerL name = strCodes ".cbr" then
      match rarRes with
      | some hs => rarTypeAndImages hs
      | none => (.unknown, [])
    else (.unknown, [])
  let p2 : ArchType × List (List Nat) :=
    if p1.1 = .unknown ∨ p1.2 = [] then
      match zipRes with
      | some es =>
        let files := p1.2 ++ zipImages000 es
        (if files ≠ [] then .zip else p1.1, files)
      | none => p1
    else p1
  let p3 : ArchType × List (List Nat) :=
    if p2.1 = .unknown ∧ 7 < buf.length ∧ buf.take 7 = rarSigL then
      match rarRes with
      | some hs =>
        let files :=
          p2.2 ++ (hs.filter (fun h => !h.directory && isImageName h.name)).map (·.name)
        (if files ≠ [] then .rar else p2.1, files)
      | none => p2
    else p2
  (p3.1, sortNat p3.2)

/-- Errors surfaced by the memory-backed `extractImagesFromArchive`. -/
inductive ConvError where
  | unsupportedFormat | extractionFailed | noImagesFound
deriving DecidableEq, Repr

/-- Memory-backed `extractImagesFromArchive`: classify, list under the chosen
kind, retry the other kind only when the choice came from the extension, sort
naturally, and fail when no image entry is found.  The final else-branch of
the classification throws `Cannot determine archive type`. -/
def extractImagesFromArchive (buf name : List Nat)
    (rarRes : Option (List RarHeader)) (zipRes : Option (List ZipEntry)) :
    Except ConvError (List (List Nat)) :=
  let attempt : Except ConvError (List (List Nat)) :=
    match classifyArchive buf name with
    | .rar =>
      match rarRes with
      | some hs => .ok (rarImages001 hs)
      | none =>
        if isValidRAR buf then .error .extractionFailed
        else
          match zipRes with
          | some es => .ok (zipImages001 es)
          | none => .error .extractionFailed
    | .zip =>
      match zipRes with
      | some es => .ok (zipImages001 es)
      | none =>
        if isValidZIP buf then .error .extractionFailed
        else
          match rarRes with
          | some hs => .ok (rarImages001 hs)
          | none => .error .extractionFailed
    | _ => .error .unsupportedFormat
  match attempt with
  | .error e => .error e
  | .ok files =>
    let sorted := sortNat files
    if sorted.isEmpty then .error .noImagesFound else .ok sorted

/-! ### Page re-encoding -/

/-- Decoded image formats as reported by `sharp().metadata().format`. -/
inductive ImgFmt where
  | png | jpeg | gif | webp | other
deriving DecidableEq, Repr

/-- A re-encoded page: PNG with an optional compression level, or JPEG with
a quality and a progressive flag. -/
inductive EncodedImage where
  | png (compressionLevel : Option Nat)
  | jpeg (quality : Nat) (progressive : Bool)
deriving DecidableEq, Repr

/-- The container format of a re-encoded page. -/
def EncodedImage.fmt : EncodedImage → ImgFmt
  | .png _ => .png
  | .jpeg _ _ => .jpeg

/-- Disk-backed `processJob` re-encode: PNG only when the decoded format is
png *and* quality is exactly 100, otherwise JPEG at the requested quality. -/
def processJobReencode (srcFmt : ImgFmt) (quality : Nat) : EncodedImage :=
  if srcFmt = .png ∧ quality = 100 then .png none else .jpeg quality false

/-- Memory-backed `createPDFFromImages` re-encode: decided by the entry
name's extension; `.png` entries stay PNG at `Math.floor(quality / 20)`
compression, everything else becomes progressive JPEG at the quality. -/
def createPDFReencode (entryName : List Nat) (quality : Nat) : EncodedImage :=
  if extLowerL entryName = strCodes ".png" then .png (some (quality / 20))
  else .jpeg quality true

/-! ### Page layout -/

/-- `A4_WIDTH` (points, bit-exact). -/
def A4W : ℚ := 595.28

/-- `A4_HEIGHT` (points, bit-exact). -/
def A4H : ℚ := 841.89

/-- A placed page image: drawn size and position handed to `drawImage`. -/
structure PageLayout where
  dw : ℚ
  dh : ℚ
  x : ℚ
  y : ℚ
deriving DecidableEq, Repr

/-- Disk-backed `processJob` scale factor:
`Math.min(A4_WIDTH / width, A4_HEIGHT / height)`. -/
def processJobScale (w h : ℚ) : ℚ := min (A4W / w) (A4H / h)

/-- Disk-backed `processJob` placement: scale both dimensions and center. -/
def processJobLayout (w h : ℚ) : PageLayout :=
  let s := processJobScale w h
  ⟨w * s, h * s, (A4W - w * s) / 2, (A4H - h * s) / 2⟩

/-- Memory-backed `createPDFFromImages` placement: start at full canvas
width, derive the height from the aspect ratio, and when it overflows clamp
to the canvas height and re-derive the width; then center. -/
def createPDFLayout (w h : ℚ) : PageLayout :=
  let availableWidth := A4W
  let availableHeight := A4H
  let finalHeight0 := if 0 < w then (availableWidth * h) / w else availableHeight
  let fw :=
    if availableHeight < finalHeight0 then
      (if 0 < h then (availableHeight * w) / h else availableWidth)
    else availableWidth
  let fh := if availableHeight < finalHeight0 then availableHeight else finalHeight0
  ⟨fw, fh, (A4W - fw) / 2, (A4H - fh) / 2⟩

/-! ### Preview cache and registries (JS `Map` modelled as an insertion-order
association list) -/

/-- `Map.prototype.get`-style lookup. -/
def lookupKey [DecidableEq K] (c : List (K × V)) (k : K) : Option V :=
  (c.find? (fun e => decide (e.1 = k))).map (·.2)

/-- `Map.prototype.set`: update in place when the key exists (keeping its
insertion position), otherwise append. -/
def mapSet [DecidableEq K] (c : List (K × V)) (k : K) (v : V) : List (K × V) :=
  if c.any (fun e => decide (e.1 = k)) then
    c.map (fun e => if e.1 = k then (k, v) else e)
  else c ++ [(k, v)]

/-- `CACHE_MAX_SIZE`. -/
def CACHE_MAX_SIZE : Nat := 100

/-- The preview-route cache write: when the cache has reached
`CACHE_MAX_SIZE`, delete the first (oldest-inserted) key, then set. -/
def previewCachePut [DecidableEq K] (c : List (K × V)) (k : K) (v : V) : List (K × V) :=
  mapSet (if CACHE_MAX_SIZE ≤ c.length then c.tail else c) k v

/-- Cache reads (`previewCache.get`) do not reorder or evict. -/
def previewCacheGet [DecidableEq K] (c : List (K × V)) (k : K) : Option V :=
  lookupKey c k

/-- One cache access in the preview route. -/
inductive CacheOp (K V : Type) where
  | get (k : K)
  | put (k : K) (v : V)

/-- Effect of one access on the cache state. -/
def applyCacheOp [DecidableEq K] (c : List (K × V)) : CacheOp K V → List (K × V)
  | .get _ => c
  | .put k v => previewCachePut c k v

/-- Cache state after a sequence of accesses starting from empty. -/
def runCacheOps [DecidableEq K] (ops : List (CacheOp K V)) : List (K × V) :=
  ops.foldl applyCacheOp []

/-- The `DELETE /api/files/:id` route: when the id is registered, drop it
from `fileStore` and delete every cache key starting with `` `${id}-` ``;
otherwise (unknown id) change nothing.  Either way the route replies
success. -/
def deleteFileRoute (id : List Nat) (reg : List (List Nat × H))
    (cache : List (List Nat × V)) : List (List Nat × H) × List (List Nat × V) :=
  if reg.any (fun e => decide (e.1 = id)) then
    (reg.eraseP (fun e => decide (e.1 = id)),
     cache.filter (fun e => !((id ++ [45]).isPrefixOf e.1)))
  else (reg, cache)

/-! ## Theorems -/

-- Basic facts about the byte-signature checks.

theorem isValidZIP_iff (buf : List Nat) :
    isValidZIP buf = true ↔ buf.take 4 = zipSigL := by
  rcases buf with _ | ⟨a, _ | ⟨b, _ | ⟨c, _ | ⟨d, rest⟩⟩⟩⟩ <;>
    simp [isValidZIP, zipSigL, and_assoc]

theorem isValidRAR_iff (buf : List Nat) :
    isValidRAR buf = true ↔ buf.take 7 = rarSigL := by
  constructor
  · intro h
    simp only [isValidRAR, Bool.and_eq_true, beq_iff_eq] at h
    exact h.2
  · intro h
    have hlen : 7 ≤ buf.length := by
      have := congrArg List.length h
      simp [rarSigL] at this
      omega
    simp [isValidRAR, h, Nat.not_lt.mpr hlen]

theorem take_of_take_zipSig {buf : List Nat} (h : buf.take 4 = zipSigL) :
    buf[0]? = some 80 ∧ buf[1]? = some 75 ∧ 4 ≤ buf.length := by
  rcases buf with _ | ⟨a, _ | ⟨b, _ | ⟨c, _ | ⟨d, rest⟩⟩⟩⟩ <;>
    simp_all [zipSigL]

/-- Claim C1: every buffer whose first four bytes are `50 4B 03 04` is
classified `zip` by both variants, whatever the file name says. -/
theorem C1_zip_signature_classifies_zip (buf name : List Nat)
    (h : buf.take 4 = zipSigL) :
    detectArchiveType buf = .zip ∧ classifyArchive buf name = .zip := by
  obtain ⟨h0, h1, hlen⟩ := take_of_take_zipSig h
  constructor
  · by_cases h4 : 4 < buf.length
    · simp [detectArchiveType, h4, h0, h1]
    · have h7 : ¬ 7 < buf.length := by omega
      simp [detectArchiveType, h4, h7]
  · have hrar : isValidRAR buf = false := by
      rw [Bool.eq_false_iff, Ne, isValidRAR_iff]
      intro hc
      have h47 := congrArg (List.take 4) hc
      rw [List.take_take] at h47
      norm_num at h47
      rw [h] at h47
      simp [zipSigL, rarSigL] at h47
    have hzip : isValidZIP buf = true := (isValidZIP_iff buf).mpr h
    simp [classifyArchive, hrar, hzip]

/-- Closed instance of C1 at the minimal 4-byte buffer. -/
theorem C1_witness :
    ([80, 75, 3, 4] : List Nat).take 4 = zipSigL ∧
    detectArchiveType [80, 75, 3, 4] = .zip ∧
    classifyArchive [80, 75, 3, 4] (strCodes "weird.txt") = .zip :=
  ⟨by decide, C1_zip_signature_classifies_zip [80, 75, 3, 4] (strCodes "weird.txt") (by decide)⟩

/-- Claim C2: at the failing input — a buffer of exactly the seven RAR
signature bytes — the disk-backed `detectArchiveType` falls through to its
ZIP fallback (its RAR branch demands `length > 7`), while the sibling
`isValidRAR` accepts the same buffer and the memory-backed classification
returns `rar`; one extra byte makes `detectArchiveType` agree. -/
theorem C2_seven_byte_rar_buffer :
    detectArchiveType rarSigL = .zip ∧
    isValidRAR rarSigL = true ∧
    classifyArchive rarSigL (strCodes "x.bin") = .rar ∧
    detectArchiveType (rarSigL ++ [0]) = .rar := by decide

-- Suffix facts about basenames and extensions, used for C3.

theorem basenameL_suffix (s : List Nat) : basenameL s <:+ s := by
  refine ⟨(s.reverse.dropWhile (fun c => decide (c ≠ 47 ∧ c ≠ 92))).reverse, ?_⟩
  conv_rhs =>
    rw [← s.reverse_reverse,
      ← List.takeWhile_append_dropWhile
        (p := fun c => decide (c ≠ 47 ∧ c ≠ 92)) (l := s.reverse)]
  rw [List.reverse_append]
  rfl

theorem dropWhile_first_false {p : α → Bool} :
    ∀ {l : List α} {x : α} {xs : List α}, l.dropWhile p = x :: xs → p x = false := by
  intro l
  induction l with
  | nil => intro x xs h; simp [List.dropWhile] at h
  | cons a t ih =>
    intro x xs h
    rw [List.dropWhile_cons] at h
    by_cases hp : p a
    · rw [if_pos hp] at h
      exact ih h
    · rw [if_neg hp] at h
      obtain ⟨rfl, -⟩ := List.cons.injEq .. ▸ h
      exact Bool.eq_false_iff.mpr hp

theorem extnameL_suffix (b : List Nat) : extnameL b <:+ b := by
  unfold extnameL
  split
  · exact ⟨b, List.append_nil b⟩
  · exact ⟨b, List.append_nil b⟩
  · next c c2 tl heq =>
    have hc : c = 46 := by
      have := dropWhile_first_false heq
      simp at this
      exact this
    refine ⟨(c2 :: tl).reverse, ?_⟩
    conv_rhs =>
      rw [← b.reverse_reverse,
        ← List.takeWhile_append_dropWhile (p := fun c => decide (c ≠ 46)) (l := b.reverse),
        heq]
    rw [hc, List.reverse_append]
    simp

theorem suffix_map {l₁ l₂ : List Nat} (f : Nat → Nat) (h : l₁ <:+ l₂) :
    l₁.map f <:+ l₂.map f := by
  obtain ⟨t, ht⟩ := h
  exact ⟨t.map f, by rw [← List.map_append, ht]⟩

theorem extLowerL_suffix (s : List Nat) : extLowerL s <:+ lowerS s :=
  List.IsSuffix.trans (suffix_map lowerN (extnameL_suffix (basenameL s)))
    (suffix_map lowerN (basenameL_suffix s))

/-- Claim C3: a buffer matching neither magic signature, under a name whose
lowercased form ends in neither `.cbr` nor `.cbz`, is classified `unknown`
by the memory-backed variant, whose extraction rejects it with the
archive-format error before attempting anything; the disk-backed variant's
upload filter rejects the same name outright. -/
theorem C3_unknown_rejected (buf name : List Nat)
    (hz : buf.take 4 ≠ zipSigL) (hr : buf.take 7 ≠ rarSigL)
    (hcbr : ¬ strCodes ".cbr" <:+ lowerS name)
    (hcbz : ¬ strCodes ".cbz" <:+ lowerS name) :
    classifyArchive buf name = .unknown ∧
    (∀ (rarRes : Option (List RarHeader)) (zipRes : Option (List ZipEntry)),
      extractImagesFromArchive buf name rarRes zipRes = .error .unsupportedFormat) ∧
    fileFilterAccepts name = false := by
  have h1 : isValidRAR buf = false := by
    rw [Bool.eq_false_iff, Ne, isValidRAR_iff]; exact hr
  have h2 : isValidZIP buf = false := by
    rw [Bool.eq_false_iff, Ne, isValidZIP_iff]; exact hz
  have h3 : extLowerL name ≠ strCodes ".cbr" := fun he => hcbr (he ▸ extLowerL_suffix name)
  have h4 : extLowerL name ≠ strCodes ".cbz" := fun he => hcbz (he ▸ extLowerL_suffix name)
  have hcl : classifyArchive buf name = .unknown := by
    simp [classifyArchive, h1, h2, h3, h4]
  refine ⟨hcl, ?_, ?_⟩
  · intro rarRes zipRes
    simp [extractImagesFromArchive, hcl]
  · simp [fileFilterAccepts, h3, h4]

/-- Closed instance of C3 at a three-byte buffer named `file.txt`. -/
theorem C3_witness :
    classifyArchive [1, 2, 3] (strCodes "file.txt") = .unknown ∧
    extractImagesFromArchive [1, 2, 3] (strCodes "file.txt") none none =
      .error .unsupportedFormat ∧
    fileFilterAccepts (strCodes "file.txt") = false := by
  have h := C3_unknown_rejected [1, 2, 3] (strCodes "file.txt")
    (by decide) (by decide) (by decide) (by decide)
  exact ⟨h.1, h.2.1 none none, h.2.2⟩

-- Lowercasing and run-decomposition lemmas, used for C4.

theorem lowerN_idem (c : Nat) : lowerN (lowerN c) = lowerN c := by
  unfold lowerN
  by_cases h : 65 ≤ c ∧ c ≤ 90
  · rw [if_pos h]
    have h2 : ¬ (65 ≤ c + 32 ∧ c + 32 ≤ 90) := by omega
    rw [if_neg h2]
  · rw [if_neg h, if_neg h]

theorem lowerS_eq_self_of {s : List Nat} (h : ∀ c ∈ s, lowerN c = c) :
    lowerS s = s := by
  unfold lowerS
  induction s with
  | nil => rfl
  | cons a t ih =>
    rw [List.map_cons, h a (List.mem_cons_self a t),
      ih fun c hc => h c (List.mem_cons_of_mem a hc)]

/-- The right-grouping `decomposeRuns` satisfies the classic longest-run
unfolding of the regex `/(\d+|\D+)/g`. -/
theorem decomposeRuns_cons (c : Nat) (cs : List Nat) :
    decomposeRuns (c :: cs) =
      (c :: cs.takeWhile (fun d => isDigitN d == isDigitN c)) ::
        decomposeRuns (cs.dropWhile (fun d => isDigitN d == isDigitN c)) := by
  induction cs generalizing c with
  | nil => rfl
  | cons d ds ih =>
    have hd0 : decomposeRuns (c :: d :: ds) =
        (match decomposeRuns (d :: ds) with
        | (e :: r) :: rs =>
          if isDigitN c == isDigitN e then (c :: e :: r) :: rs
          else [c] :: (e :: r) :: rs
        | _ => [[c]]) := rfl
    rw [hd0, ih d, List.takeWhile_cons, List.dropWhile_cons]
    by_cases hcd : isDigitN d = isDigitN c
    · have hfun : (fun e => isDigitN e == isDigitN d) =
          fun e => isDigitN e == isDigitN c := by
        funext e; rw [hcd]
      simp [hcd, hfun]
    · have h1 : (isDigitN c == isDigitN d) = false :=
        beq_eq_false_iff_ne.mpr fun h => hcd h.symm
      have h2 : (isDigitN d == isDigitN c) = false :=
        beq_eq_false_iff_ne.mpr hcd
      simp [h1, h2]
      exact (ih d).symm

theorem mem_of_mem_decomposeRuns :
    ∀ (s r : List Nat), r ∈ decomposeRuns s → ∀ c ∈ r, c ∈ s := by
  have H : ∀ (n : Nat) (s : List Nat), s.length ≤ n →
      ∀ r ∈ decomposeRuns s, ∀ c ∈ r, c ∈ s := by
    intro n
    induction n with
    | zero =>
      intro s hs r hr
      have h0 : s = [] := List.length_eq_zero.mp (by omega)
      subst h0
      simp [decomposeRuns] at hr
    | succ n ih =>
      intro s hs r hr d hd
      match s with
      | [] => simp [decomposeRuns] at hr
      | c :: cs =>
        rw [decomposeRuns_cons] at hr
        rcases List.mem_cons.mp hr with h | h
        · subst h
          rcases List.mem_cons.mp hd with rfl | hd2
          · exact List.mem_cons_self ..
          · exact List.mem_cons_of_mem _ ((List.takeWhile_sublist _).subset hd2)
        · have hlen : (cs.dropWhile (fun d => isDigitN d == isDigitN c)).length ≤ n := by
            have h1 := (List.dropWhile_sublist (l := cs)
              (p := fun d => isDigitN d == isDigitN c)).length_le
            simp at hs
            omega
          exact List.mem_cons_of_mem _
            ((List.dropWhile_sublist _).subset (ih _ hlen r h d hd))
  exact fun s => H s.length s le_rfl

theorem specPartCmp_eq_partCmp {x y : List Nat}
    (hx : lowerS x = x) (hy : lowerS y = y) :
    specPartCmp x y = partCmp x y := by
  simp only [specPartCmp, partCmp, hx, hy]

theorem specRunsCmpR_eq (ys : List (List Nat)) (hys : ∀ r ∈ ys, lowerS r = r) :
    specRunsCmpR ys = runsCmpR ys := by
  induction ys with
  | nil => rfl
  | cons y ys2 ih =>
    rw [specRunsCmpR, runsCmpR,
      specPartCmp_eq_partCmp rfl (hys y (List.mem_cons_self ..))]
    have hrec := ih fun r hr => hys r (List.mem_cons_of_mem _ hr)
    cases partCmp [] y <;> simp [hrec]

theorem specRunsCmpL_eq (xs : List (List Nat)) (hxs : ∀ r ∈ xs, lowerS r = r) :
    specRunsCmpL xs = runsCmpL xs := by
  induction xs with
  | nil => rfl
  | cons x xs2 ih =>
    rw [specRunsCmpL, runsCmpL,
      specPartCmp_eq_partCmp (hxs x (List.mem_cons_self ..)) rfl]
    have hrec := ih fun r hr => hxs r (List.mem_cons_of_mem _ hr)
    cases partCmp x [] <;> simp [hrec]

theorem specRunsCmp_eq_runsCmp :
    ∀ (xs ys : List (List Nat)),
    (∀ r ∈ xs, lowerS r = r) → (∀ r ∈ ys, lowerS r = r) →
    specRunsCmp xs ys = runsCmp xs ys := by
  intro xs
  induction xs with
  | nil =>
    intro ys _ hys
    show specRunsCmpR ys = runsCmpR ys
    exact specRunsCmpR_eq ys hys
  | cons x xs2 ih =>
    intro ys hxs hys
    cases ys with
    | nil =>
      show specRunsCmpL (x :: xs2) = runsCmpL (x :: xs2)
      exact specRunsCmpL_eq _ hxs
    | cons y ys2 =>
      show (match specPartCmp x y with
        | .eq => specRunsCmp xs2 ys2
        | o => o) = (match partCmp x y with
        | .eq => runsCmp xs2 ys2
        | o => o)
      rw [specPartCmp_eq_partCmp (hxs x (List.mem_cons_self ..))
        (hys y (List.mem_cons_self ..))]
      have hrec := ih ys2 (fun r hr => hxs r (List.mem_cons_of_mem _ hr))
        (fun r hr => hys r (List.mem_cons_of_mem _ hr))
      cases partCmp x y <;> simp [hrec]

theorem decomposeRuns_lowered {s : List Nat} :
    ∀ r ∈ decomposeRuns (lowerS s), lowerS r = r := by
  intro r hr
  apply lowerS_eq_self_of
  intro c hc
  have hcs : c ∈ lowerS s := mem_of_mem_decomposeRuns _ r hr c hc
  obtain ⟨d, -, rfl⟩ := List.mem_map.mp hcs
  exact lowerN_idem d

theorem sortCmp_fixed_of_chain (cmp : α → α → Ordering) :
    ∀ l : List α, List.Chain' (fun a b => cmp a b ≠ .gt) l → sortCmp cmp l = l := by
  intro l
  induction l with
  | nil => intro _; rfl
  | cons x xs ih =>
    intro h
    rw [sortCmp, ih h.tail]
    cases xs with
    | nil => rfl
    | cons y ys =>
      have hxy : cmp x y ≠ .gt := (List.chain'_cons.mp h).1
      simp [insertCmp, hxy]

/-- Counterexample to C4 as stated: the code orders `b/page1.jpg` before
`a/page2.jpg` (it compares basenames), while decomposing the entry names
themselves, as the claim describes, orders them the other way. -/
theorem C4_counterexample :
    naturalSortCmp (strCodes "b/page1.jpg") (strCodes "a/page2.jpg") = .lt ∧
    specNaturalCmp (strCodes "b/page1.jpg") (strCodes "a/page2.jpg") = .gt := by
  constructor <;> rfl

/-- Claim C4 (amended): the natural comparison is applied to the lowercased
basenames of the entry names — those are decomposed into alternating
digit/non-digit runs compared run-by-run, digit runs as integers, non-digit
runs lexicographically (lowercasing makes this case-insensitive), missing
trailing runs as the empty string; the claim's example sorts as stated, and
sorting an already-sorted list changes nothing. -/
theorem C4_natural_sort_amended :
    (∀ a b : List Nat, naturalSortCmp a b =
      specNaturalCmp (lowerS (basenameL a)) (lowerS (basenameL b))) ∧
    sortNat [strCodes "page2.jpg", strCodes "page10.jpg", strCodes "page1.jpg"] =
      [strCodes "page1.jpg", strCodes "page2.jpg", strCodes "page10.jpg"] ∧
    (∀ l : List (List Nat),
      List.Chain' (fun a b => naturalSortCmp a b ≠ .gt) l → sortNat l = l) := by
  refine ⟨?_, by decide, fun l h => sortCmp_fixed_of_chain naturalSortCmp l h⟩
  intro a b
  unfold naturalSortCmp specNaturalCmp
  exact (specRunsCmp_eq_runsCmp _ _ decomposeRuns_lowered decomposeRuns_lowered).symm

/-- Closed instance of C4 (amended) at concrete names and a concrete
already-sorted list. -/
theorem C4_witness :
    naturalSortCmp (strCodes "x.png") (strCodes "y.png") =
      specNaturalCmp (lowerS (basenameL (strCodes "x.png")))
        (lowerS (basenameL (strCodes "y.png"))) ∧
    sortNat [strCodes "a.jpg", strCodes "b.jpg"] =
      [strCodes "a.jpg", strCodes "b.jpg"] :=
  ⟨C4_natural_sort_amended.1 _ _,
   C4_natural_sort_amended.2.2 _ (List.chain'_pair.mpr (by decide))⟩

/-- Counterexample to C5 as stated: a PNG source entry `x.png` re-encoded at
quality 50 by the memory-backed variant stays PNG, where the claim demands
JPEG for any quality below 100. -/
theorem C5_counterexample :
    (createPDFReencode (strCodes "x.png") 50).fmt = .png ∧
    (createPDFReencode (strCodes "x.png") 50).fmt ≠ .jpeg := by
  constructor <;> decide

/-- Claim C5 (amended): the disk-backed `processJob` re-encode is PNG iff
the decoded format is PNG and quality is exactly 100, otherwise JPEG at the
requested quality; the memory-backed `createPDFFromImages` re-encode is PNG
iff the entry's extension is `.png` — at any quality, with compression level
`floor(quality / 20)` — and JPEG at the requested quality otherwise. -/
theorem C5_reencode_amended :
    (∀ (f : ImgFmt) (q : Nat), 1 ≤ q → q ≤ 100 →
      (((processJobReencode f q).fmt = .png) ↔ (f = .png ∧ q = 100)) ∧
      (¬(f = .png ∧ q = 100) → processJobReencode f q = .jpeg q false)) ∧
    (∀ (name : List Nat) (q : Nat),
      (((createPDFReencode name q).fmt = .png) ↔ extLowerL name = strCodes ".png") ∧
      (extLowerL name ≠ strCodes ".png" → createPDFReencode name q = .jpeg q true) ∧
      (extLowerL name = strCodes ".png" →
        createPDFReencode name q = .png (some (q / 20)))) := by
  constructor
  · intro f q _ _
    by_cases h : f = .png ∧ q = 100
    · obtain ⟨rfl, rfl⟩ := h
      exact ⟨by simp [processJobReencode, EncodedImage.fmt],
        fun hff => absurd ⟨rfl, rfl⟩ hff⟩
    · refine ⟨?_, fun _ => by rw [processJobReencode, if_neg h]⟩
      rw [processJobReencode, if_neg h]
      exact iff_of_false (by simp [EncodedImage.fmt]) h
  · intro name q
    by_cases h : extLowerL name = strCodes ".png"
    · simp [createPDFReencode, h, EncodedImage.fmt]
    · simp [createPDFReencode, h, EncodedImage.fmt]

/-- Closed instance of C5 (amended) at a PNG source with quality 100 and a
JPEG entry with quality 75. -/
theorem C5_witness :
    (((processJobReencode .png 100).fmt = .png) ↔
      (ImgFmt.png = .png ∧ (100 : Nat) = 100)) ∧
    (((createPDFReencode (strCodes "a.jpg") 75).fmt = .png) ↔
      extLowerL (strCodes "a.jpg") = strCodes ".png") :=
  ⟨(C5_reencode_amended.1 .png 100 (by decide) (by decide)).1,
   (C5_reencode_amended.2 (strCodes "a.jpg") 75).1⟩

/-- Counterexample to C6 as stated: a 1×1 image gets scale factor 595.28 and
is drawn 595.28 points wide — the code never caps the scale at the native
size, so small images are upscaled. -/
theorem C6_counterexample :
    ¬ processJobScale 1 1 ≤ 1 ∧ 1 < (processJobLayout 1 1).dw := by
  constructor <;> norm_num [processJobScale, processJobLayout, A4W, A4H]

/-- Claim C6 (amended): for positive dimensions the disk-backed layout uses
the uniform scale `min(595.28/w, 841.89/h)` on both axes, centers the result,
and the drawn image lies fully inside the A4 canvas; the scale factor is not
capped at 1, so images smaller than the canvas are upscaled to fit. -/
theorem C6_layout_amended (w h : ℚ) (hw : 0 < w) (hh : 0 < h) :
    processJobScale w h = min (A4W / w) (A4H / h) ∧
    (processJobLayout w h).dw = w * processJobScale w h ∧
    (processJobLayout w h).dh = h * processJobScale w h ∧
    (processJobLayout w h).x = (A4W - (processJobLayout w h).dw) / 2 ∧
    (processJobLayout w h).y = (A4H - (processJobLayout w h).dh) / 2 ∧
    0 ≤ (processJobLayout w h).x ∧
    (processJobLayout w h).x + (processJobLayout w h).dw ≤ A4W ∧
    0 ≤ (processJobLayout w h).y ∧
    (processJobLayout w h).y + (processJobLayout w h).dh ≤ A4H := by
  have hA4W : (0 : ℚ) < A4W := by norm_num [A4W]
  have hA4H : (0 : ℚ) < A4H := by norm_num [A4H]
  have hs0 : 0 ≤ processJobScale w h :=
    le_min (le_of_lt (div_pos hA4W hw)) (le_of_lt (div_pos hA4H hh))
  have hsW : processJobScale w h ≤ A4W / w := min_le_left _ _
  have hsH : processJobScale w h ≤ A4H / h := min_le_right _ _
  have hdwW : w * processJobScale w h ≤ A4W := by
    calc w * processJobScale w h ≤ w * (A4W / w) :=
          mul_le_mul_of_nonneg_left hsW (le_of_lt hw)
      _ = A4W := by field_simp
  have hdhH : h * processJobScale w h ≤ A4H := by
    calc h * processJobScale w h ≤ h * (A4H / h) :=
          mul_le_mul_of_nonneg_left hsH (le_of_lt hh)
      _ = A4H := by field_simp
  have hdw0 : 0 ≤ w * processJobScale w h := mul_nonneg (le_of_lt hw) hs0
  have hdh0 : 0 ≤ h * processJobScale w h := mul_nonneg (le_of_lt hh) hs0
  refine ⟨rfl, rfl, rfl, rfl, rfl, ?_, ?_, ?_, ?_⟩ <;>
    simp only [processJobLayout] <;> linarith

/-- Closed instance of C6 (amended) at a 100×200 image. -/
theorem C6_witness :
    0 ≤ (processJobLayout 100 200).x ∧
    (processJobLayout 100 200).x + (processJobLayout 100 200).dw ≤ A4W ∧
    0 ≤ (processJobLayout 100 200).y ∧
    (processJobLayout 100 200).y + (processJobLayout 100 200).dh ≤ A4H := by
  have h := C6_layout_amended 100 200 (by norm_num) (by norm_num)
  exact ⟨h.2.2.2.2.2.1, h.2.2.2.2.2.2.1, h.2.2.2.2.2.2.2.1, h.2.2.2.2.2.2.2.2⟩

-- The two layout computations agree on positive dimensions (C10).

theorem layout_equiv_rat (w h : ℚ) (hw : 0 < w) (hh : 0 < h) :
    createPDFLayout w h = processJobLayout w h := by
  have hwne : w ≠ 0 := ne_of_gt hw
  have hhne : h ≠ 0 := ne_of_gt hh
  unfold createPDFLayout processJobLayout processJobScale
  simp only [hw, hh, if_true]
  by_cases hc : A4H < A4W * h / w
  · have hlt : A4H / h < A4W / w := by
      rw [div_lt_div_iff₀ hh hw]
      rw [lt_div_iff₀ hw] at hc
      linarith
    have hmin : min (A4W / w) (A4H / h) = A4H / h := min_eq_right (le_of_lt hlt)
    simp only [hc, if_true, hmin, PageLayout.mk.injEq]
    refine ⟨?_, ?_, ?_, ?_⟩
    · field_simp
      ring
    · field_simp
    · field_simp
      ring
    · field_simp
  · have hle : A4W / w ≤ A4H / h := by
      rw [div_le_div_iff₀ hw hh]
      rw [not_lt, div_le_iff₀ hw] at hc
      linarith
    have hmin : min (A4W / w) (A4H / h) = A4W / w := min_eq_left hle
    simp only [hc, if_false, hmin, PageLayout.mk.injEq]
    refine ⟨?_, ?_, ?_, ?_⟩
    · field_simp
    · field_simp
      ring
    · field_simp
    · field_simp
      ring

/-- Claim C10: for every positive integer width and height, the memory-backed
width-first layout and the disk-backed min-scale layout produce the same
drawn width, drawn height and centered position. -/
theorem C10_layout_refinement (w h : ℕ) (hw : 0 < w) (hh : 0 < h) :
    createPDFLayout (w : ℚ) (h : ℚ) = processJobLayout (w : ℚ) (h : ℚ) :=
  layout_equiv_rat _ _ (by exact_mod_cast hw) (by exact_mod_cast hh)

/-- Closed instance of C10 at a 100×200 image. -/
theorem C10_witness :
    createPDFLayout ((100 : ℕ) : ℚ) ((200 : ℕ) : ℚ) =
      processJobLayout ((100 : ℕ) : ℚ) ((200 : ℕ) : ℚ) :=
  C10_layout_refinement 100 200 (by norm_num) (by norm_num)

-- Lemmas about the RAR listing loops and sorting length, used for C7.

theorem rarScanEnc_none :
    ∀ {hs : List RarHeader}, (∃ x ∈ hs, x.encrypted = true) → rarScanEnc hs = none := by
  intro hs
  induction hs with
  | nil =>
    rintro ⟨x, hx, -⟩
    simp at hx
  | cons a t ih =>
    rintro ⟨x, hx, hxe⟩
    rw [rarScanEnc]
    by_cases ha : a.encrypted = true
    · rw [if_pos ha]
    · rw [if_neg ha]
      have hxt : x ∈ t := by
        rcases List.mem_cons.mp hx with rfl | h
        · exact absurd hxe ha
        · exact h
      rw [ih ⟨x, hxt, hxe⟩]

theorem insertCmp_length (cmp : α → α → Ordering) (x : α) :
    ∀ l : List α, (insertCmp cmp x l).length = l.length + 1 := by
  intro l
  induction l with
  | nil => rfl
  | cons y ys ih =>
    rw [insertCmp]
    by_cases h : cmp x y = .gt
    · rw [if_pos h]
      simp [ih]
    · rw [if_neg h]
      simp

theorem sortCmp_length (cmp : α → α → Ordering) :
    ∀ l : List α, (sortCmp cmp l).length = l.length := by
  intro l
  induction l with
  | nil => rfl
  | cons x xs ih =>
    rw [sortCmp, insertCmp_length, ih, List.length_cons]

theorem sortNat_ne_nil {l : List (List Nat)} (h : l ≠ []) : sortNat l ≠ [] := by
  intro hc
  apply h
  have := sortCmp_length naturalSortCmp l
  rw [show sortNat l = sortCmp naturalSortCmp l from rfl] at hc
  rw [hc] at this
  exact List.length_eq_zero.mp this.symm

/-- Counterexample to C7 as stated: the second disk-backed listing, given a
`.cbr` archive whose only entry `a.jpg` is flagged encrypted, returns type
`rar-encrypted` together with a NON-empty page list. -/
theorem C7_counterexample :
    getArchiveFileListV2 [] (strCodes "x.cbr")
        (some [⟨strCodes "a.jpg", true, false⟩]) none =
      (.rarEncrypted, [strCodes "a.jpg"]) ∧
    ([strCodes "a.jpg"] : List (List Nat)) ≠ [] := by
  constructor
  · rfl
  · decide

/-- Claim C7 (amended): in the first disk-backed listing any encrypted
header makes the result exactly `(rar-encrypted, [])`; in the second
disk-backed listing a qualifying encrypted entry makes the result type
`rar-encrypted` but the page list is retained non-empty. -/
theorem C7_encrypted_amended :
    (∀ (buf : List Nat) (zipRes : Option (List ZipEntry)) (hs : List RarHeader),
      detectArchiveType buf = .rar → (∃ x ∈ hs, x.encrypted = true) →
      getArchiveFileListV1 buf zipRes (some hs) = (.rarEncrypted, [])) ∧
    (∀ (buf name : List Nat) (hs : List RarHeader) (zipRes : Option (List ZipEntry)),
      extLowerL name = strCodes ".cbr" →
      (∃ x ∈ hs, x.encrypted = true ∧ x.directory = false ∧ isImageName x.name = true) →
      (getArchiveFileListV2 buf name (some hs) zipRes).1 = .rarEncrypted ∧
      (getArchiveFileListV2 buf name (some hs) zipRes).2 ≠ []) := by
  constructor
  · intro buf zipRes hs hdet henc
    simp only [getArchiveFileListV1, hdet]
    simp [rarScanEnc_none henc]
  · rintro buf name hs zipRes hext ⟨x, hx, hxe, hxd, hxi⟩
    have hany : hs.any (·.encrypted) = true :=
      List.any_eq_true.mpr ⟨x, hx, by simp [hxe]⟩
    have hmemf : x ∈ hs.filter (fun h => !h.directory && isImageName h.name) :=
      List.mem_filter.mpr ⟨hx, by simp [hxd, hxi]⟩
    have hmemm : x.name ∈
        (hs.filter (fun h => !h.directory && isImageName h.name)).map (·.name) :=
      List.mem_map.mpr ⟨x, hmemf, rfl⟩
    have hne : (hs.filter (fun h => !h.directory && isImageName h.name)).map (·.name) ≠
        [] := List.ne_nil_of_mem hmemm
    have hp1 : rarTypeAndImages hs =
        (.rarEncrypted,
          (hs.filter (fun h => !h.directory && isImageName h.name)).map (·.name)) := by
      simp [rarTypeAndImages, hany]
    simp only [getArchiveFileListV2, hext, if_pos, hp1]
    simp only [hne, or_false, if_neg, reduceCtorEq, false_or]
    exact ⟨rfl, sortNat_ne_nil hne⟩

/-- Closed instance of C7 (amended) on one-entry archives. -/
theorem C7_witness :
    getArchiveFileListV1 (rarSigL ++ [0]) none
      (some [⟨strCodes "a.jpg", true, false⟩]) = (.rarEncrypted, []) ∧
    (getArchiveFileListV2 [] (strCodes "y.cbr")
      (some [⟨strCodes "b.jpg", true, false⟩]) none).1 = .rarEncrypted :=
  ⟨C7_encrypted_amended.1 _ none _ (by decide) (by decide),
   (C7_encrypted_amended.2 _ _ _ none (by decide) (by decide)).1⟩

-- Cache lemmas, used for C8.

theorem mapSet_length_le {K V : Type} [DecidableEq K] (c : List (K × V)) (k : K) (v : V) :
    (mapSet c k v).length ≤ c.length + 1 := by
  unfold mapSet
  split
  · simp
  · simp

theorem previewCachePut_length {K V : Type} [DecidableEq K]
    (c : List (K × V)) (k : K) (v : V) (h : c.length ≤ CACHE_MAX_SIZE) :
    (previewCachePut c k v).length ≤ CACHE_MAX_SIZE := by
  unfold previewCachePut
  by_cases hc : CACHE_MAX_SIZE ≤ c.length
  · rw [if_pos hc]
    have h1 := mapSet_length_le c.tail k v
    have h2 : c.tail.length = c.length - 1 := List.length_tail c
    simp only [CACHE_MAX_SIZE] at *
    omega
  · rw [if_neg hc]
    have h1 := mapSet_length_le c k v
    simp only [CACHE_MAX_SIZE] at *
    omega

theorem foldl_cacheOps_length {K V : Type} [DecidableEq K] :
    ∀ (ops : List (CacheOp K V)) (c : List (K × V)), c.length ≤ CACHE_MAX_SIZE →
    (ops.foldl applyCacheOp c).length ≤ CACHE_MAX_SIZE := by
  intro ops
  induction ops with
  | nil => intro c h; exact h
  | cons op t ih =>
    intro c h
    rw [List.foldl_cons]
    apply ih
    cases op with
    | get k => exact h
    | put k v => exact previewCachePut_length c k v h

theorem foldPuts_append {K V : Type} [DecidableEq K] (val : K → V) :
    ∀ (ks : List K) (c : List (K × V)), ks.Nodup →
    (∀ k ∈ ks, c.any (fun e => decide (e.1 = k)) = false) →
    c.length + ks.length ≤ CACHE_MAX_SIZE →
    ks.foldl (fun c2 k2 => previewCachePut c2 k2 (val k2)) c =
      c ++ ks.map (fun k2 => (k2, val k2)) := by
  intro ks
  induction ks with
  | nil =>
    intro c _ _ _
    simp
  | cons k t ih =>
    intro c hnd hdis hlen
    obtain ⟨hkt, hndt⟩ := List.nodup_cons.mp hnd
    have hlen2 : c.length + t.length + 1 ≤ CACHE_MAX_SIZE := by
      simp only [List.length_cons] at hlen
      omega
    rw [List.foldl_cons]
    have hput : previewCachePut c k (val k) = c ++ [(k, val k)] := by
      unfold previewCachePut
      have hlt : ¬ CACHE_MAX_SIZE ≤ c.length := by
        simp only [CACHE_MAX_SIZE] at *
        omega
      rw [if_neg hlt]
      unfold mapSet
      rw [hdis k (List.mem_cons_self ..)]
      simp
    rw [hput]
    have hdis2 : ∀ k2 ∈ t, (c ++ [(k, val k)]).any (fun e => decide (e.1 = k2)) = false := by
      intro k2 hk2
      rw [List.any_append]
      have h1 := hdis k2 (List.mem_cons_of_mem _ hk2)
      have h2 : ((k, val k).1 = k2) = False := by
        simp only [eq_iff_iff, iff_false]
        intro he
        exact hkt (he ▸ hk2)
      simp [h1, h2]
    have hlen3 : (c ++ [(k, val k)]).length + t.length ≤ CACHE_MAX_SIZE := by
      simp only [List.length_append, List.length_singleton]
      omega
    rw [ih (c ++ [(k, val k)]) hndt hdis2 hlen3]
    simp

theorem lookupKey_map_self {K V : Type} [DecidableEq K] (val : K → V) :
    ∀ (l : List K) (k : K), k ∈ l →
    lookupKey (l.map fun a => (a, val a)) k = some (val k) := by
  intro l
  induction l with
  | nil =>
    intro k hk
    simp at hk
  | cons a t ih =>
    intro k hk
    unfold lookupKey
    rw [List.map_cons]
    by_cases hak : a = k
    · subst hak
      rw [List.find?_cons_of_pos _ (by simp)]
      rfl
    · rw [List.find?_cons_of_neg _ (by simp [hak])]
      have hkt : k ∈ t := by
        rcases List.mem_cons.mp hk with rfl | h
        · exact absurd rfl hak
        · exact h
      exact ih k hkt

theorem lookupKey_map_none {K V : Type} [DecidableEq K] (val : K → V)
    (l : List K) (k : K) (hk : k ∉ l) :
    lookupKey (l.map fun a => (a, val a)) k = none := by
  unfold lookupKey
  rw [List.find?_eq_none.mpr]
  · rfl
  · intro x hx
    obtain ⟨a, ha, rfl⟩ := List.mem_map.mp hx
    simp only [decide_eq_true_eq]
    intro he
    exact hk (he ▸ ha)

/-- Claim C8: the preview cache never exceeds `CACHE_MAX_SIZE` entries under
any get/put sequence; inserting `CACHE_MAX_SIZE + 1` distinct keys into an
empty cache evicts exactly the first-inserted key and leaves every other
inserted key retrievable; and gets never change the cache (eviction order is
insertion order, not access recency). -/
theorem C8_preview_cache {K V : Type} [DecidableEq K] :
    (∀ ops : List (CacheOp K V), (runCacheOps ops).length ≤ CACHE_MAX_SIZE) ∧
    (∀ (k : K) (rest : List K) (val : K → V), (k :: rest).Nodup →
      rest.length = CACHE_MAX_SIZE →
      previewCacheGet
        ((k :: rest).foldl (fun c2 k2 => previewCachePut c2 k2 (val k2)) []) k = none ∧
      (∀ k2 ∈ rest,
        previewCacheGet
          ((k :: rest).foldl (fun c2 k2 => previewCachePut c2 k2 (val k2)) []) k2 =
          some (val k2))) ∧
    (∀ (c : List (K × V)) (k : K), applyCacheOp c (.get k) = c) := by
  refine ⟨fun ops => foldl_cacheOps_length ops [] (by simp), ?_, fun c k => rfl⟩
  intro k rest val hnd hlen
  obtain ⟨hknr, hndr⟩ := List.nodup_cons.mp hnd
  have hrne : rest ≠ [] := by
    intro h
    rw [h] at hlen
    simp [CACHE_MAX_SIZE] at hlen
  have hsplit : rest.dropLast ++ [rest.getLast hrne] = rest :=
    List.dropLast_append_getLast hrne
  have hndr2 : (rest.dropLast ++ [rest.getLast hrne]).Nodup := by
    rw [hsplit]
    exact hndr
  have hzinit : rest.getLast hrne ∉ rest.dropLast := by
    intro hmem
    have hd := (List.nodup_append.mp hndr2).2.2
    exact hd hmem (List.mem_singleton.mpr rfl)
  have hndinit : rest.dropLast.Nodup := (List.nodup_append.mp hndr2).1
  have hinitlen : rest.dropLast.length = CACHE_MAX_SIZE - 1 := by
    rw [List.length_dropLast, hlen]
  have hcache : (k :: rest).foldl (fun c2 k2 => previewCachePut c2 k2 (val k2)) [] =
      rest.map (fun a => (a, val a)) := by
    rw [List.foldl_cons]
    have h0 : previewCachePut ([] : List (K × V)) k (val k) = [(k, val k)] := by
      simp [previewCachePut, mapSet, CACHE_MAX_SIZE]
    rw [h0]
    conv_lhs => rw [← hsplit]
    rw [List.foldl_append]
    have hdis : ∀ k2 ∈ rest.dropLast,
        ([(k, val k)] : List (K × V)).any (fun e => decide (e.1 = k2)) = false := by
      intro k2 hk2
      have hne : k ≠ k2 := by
        intro he
        exact hknr (he ▸ (List.dropLast_sublist rest).subset hk2)
      simp [hne]
    have hlen99 : ([(k, val k)] : List (K × V)).length + rest.dropLast.length ≤
        CACHE_MAX_SIZE := by
      simp only [List.length_singleton, hinitlen, CACHE_MAX_SIZE]
      omega
    rw [foldPuts_append val rest.dropLast [(k, val k)] hndinit hdis hlen99]
    simp only [List.singleton_append, List.foldl_cons, List.foldl_nil]
    unfold previewCachePut
    have hlenfull : CACHE_MAX_SIZE ≤
        ((k, val k) :: rest.dropLast.map fun k2 => (k2, val k2)).length := by
      simp only [List.length_cons, List.length_map, hinitlen, CACHE_MAX_SIZE]
      omega
    rw [if_pos hlenfull]
    simp only [List.tail_cons]
    unfold mapSet
    have hzany : (rest.dropLast.map fun k2 => (k2, val k2)).any
        (fun e => decide (e.1 = rest.getLast hrne)) = false := by
      rw [List.any_eq_false]
      intro e he
      obtain ⟨a, ha, rfl⟩ := List.mem_map.mp he
      simp only [decide_eq_true_eq]
      intro hea
      exact hzinit (hea ▸ ha)
    rw [hzany]
    simp only [Bool.false_eq_true, if_false]
    rw [show [(rest.getLast hrne, val (rest.getLast hrne))] =
        List.map (fun k2 => (k2, val k2)) [rest.getLast hrne] from rfl,
      ← List.map_append, hsplit]
  rw [hcache]
  exact ⟨lookupKey_map_none val rest k hknr, fun k2 hk2 => lookupKey_map_self val rest k2 hk2⟩

/-- Closed instance of C8: key 0 followed by keys 1..100 — key 0 is evicted,
key 100 is retrievable. -/
theorem C8_witness :
    previewCacheGet
      ((0 :: List.range' 1 100).foldl
        (fun c2 k2 => previewCachePut c2 k2 ((fun n : Nat => n) k2))
        ([] : List (Nat × Nat))) 0 = none ∧
    previewCacheGet
      ((0 :: List.range' 1 100).foldl
        (fun c2 k2 => previewCachePut c2 k2 ((fun n : Nat => n) k2))
        ([] : List (Nat × Nat))) 100 = some 100 := by
  have h := (C8_preview_cache (K := Nat) (V := Nat)).2.1 0 (List.range' 1 100)
    (fun n : Nat => n)
    (by simp [List.nodup_cons, List.nodup_range', List.mem_range'_1])
    (by simp [CACHE_MAX_SIZE])
  exact ⟨h.1, h.2 100 (by simp [List.mem_range'_1])⟩

-- Association-list lemmas for erased and filtered maps, used for C9.

theorem find?_eraseP_of_disjoint {p q : α → Bool}
    (hpq : ∀ e, p e = true → q e = false) :
    ∀ l : List α, (l.eraseP q).find? p = l.find? p := by
  intro l
  induction l with
  | nil => rfl
  | cons a t ih =>
    rw [List.eraseP_cons]
    by_cases hqa : q a = true
    · rw [hqa, cond_true]
      have hpa : p a = false := by
        by_cases hp : p a = true
        · rw [hpq a hp] at hqa
          cases hqa
        · exact Bool.eq_false_iff.mpr hp
      rw [List.find?_cons_of_neg _ (by simp [hpa])]
    · rw [Bool.eq_false_iff.mpr hqa, cond_false]
      by_cases hpa : p a = true
      · rw [List.find?_cons_of_pos _ hpa, List.find?_cons_of_pos _ hpa]
      · rw [List.find?_cons_of_neg _ (by simp_all),
          List.find?_cons_of_neg _ (by simp_all)]
        exact ih

theorem find?_filter_of_imp {p q : α → Bool}
    (hpq : ∀ e, p e = true → q e = true) :
    ∀ l : List α, (l.filter q).find? p = l.find? p := by
  intro l
  induction l with
  | nil => rfl
  | cons a t ih =>
    rw [List.filter_cons]
    by_cases hqa : q a = true
    · rw [if_pos hqa]
      by_cases hpa : p a = true
      · rw [List.find?_cons_of_pos _ hpa, List.find?_cons_of_pos _ hpa]
      · rw [List.find?_cons_of_neg _ (by simp_all),
          List.find?_cons_of_neg _ (by simp_all)]
        exact ih
    · rw [if_neg hqa]
      have hpa : p a = false := by
        by_cases hp : p a = true
        · rw [hpq a hp] at hqa
          exact absurd rfl hqa
        · exact Bool.eq_false_iff.mpr hp
      rw [List.find?_cons_of_neg _ (by simp [hpa])]
      exact ih

theorem lookup_eraseP_self_none {H : Type} (id : List Nat) :
    ∀ reg : List (List Nat × H), (reg.map Prod.fst).Nodup →
    lookupKey (reg.eraseP (fun e => decide (e.1 = id))) id = none := by
  intro reg
  induction reg with
  | nil =>
    intro _
    rfl
  | cons a t ih =>
    intro hnd
    rw [List.map_cons] at hnd
    have hnd2 := List.nodup_cons.mp hnd
    unfold lookupKey
    rw [List.eraseP_cons]
    by_cases ha : a.1 = id
    · rw [decide_eq_true ha, cond_true]
      rw [List.find?_eq_none.mpr]
      · rfl
      · intro x hx
        simp only [decide_eq_true_eq]
        intro hxid
        have hmem : id ∈ t.map Prod.fst := hxid ▸ List.mem_map_of_mem _ hx
        exact hnd2.1 (ha ▸ hmem)
    · rw [decide_eq_false ha, cond_false]
      rw [List.find?_cons_of_neg _ (by simp [ha])]
      exact ih hnd2.2

/-- Claim C9: when the id is registered, the delete route removes exactly
that id's registry entry and exactly the cache keys carrying the
`` `${id}-` `` prefix, leaving every other registry and cache entry with its
old lookup result; an unregistered id is a success no-op that changes
neither structure. -/
theorem C9_delete_route {H V : Type} (id : List Nat)
    (reg : List (List Nat × H)) (cache : List (List Nat × V))
    (hnd : (reg.map Prod.fst).Nodup) :
    (reg.any (fun e => decide (e.1 = id)) = true →
      lookupKey (deleteFileRoute id reg cache).1 id = none ∧
      (∀ id2, id2 ≠ id →
        lookupKey (deleteFileRoute id reg cache).1 id2 = lookupKey reg id2) ∧
      (∀ k, (id ++ [45]).isPrefixOf k = true →
        lookupKey (deleteFileRoute id reg cache).2 k = none) ∧
      (∀ k, (id ++ [45]).isPrefixOf k = false →
        lookupKey (deleteFileRoute id reg cache).2 k = lookupKey cache k)) ∧
    (reg.any (fun e => decide (e.1 = id)) = false →
      deleteFileRoute id reg cache = (reg, cache)) := by
  constructor
  · intro hpresent
    have hroute : deleteFileRoute id reg cache =
        (reg.eraseP (fun e => decide (e.1 = id)),
         cache.filter (fun e => !((id ++ [45]).isPrefixOf e.1))) := by
      unfold deleteFileRoute
      rw [if_pos hpresent]
    rw [hroute]
    refine ⟨lookup_eraseP_self_none id reg hnd, ?_, ?_, ?_⟩
    · intro id2 hne
      unfold lookupKey
      rw [find?_eraseP_of_disjoint]
      intro e he
      simp only [decide_eq_true_eq] at he ⊢
      rw [he]
      exact decide_eq_false fun h => hne h
    · intro k hk
      unfold lookupKey
      rw [List.find?_eq_none.mpr]
      · rfl
      · intro x hx
        simp only [decide_eq_true_eq]
        intro hxk
        have hkept := (List.mem_filter.mp hx).2
        rw [hxk, hk] at hkept
        simp at hkept
    · intro k hk
      unfold lookupKey
      rw [find?_filter_of_imp]
      intro e he
      simp only [decide_eq_true_eq] at he
      rw [he, hk]
      rfl
  · intro habsent
    unfold deleteFileRoute
    rw [if_neg (by simp [habsent])]

/-- Closed instance of C9: deleting id `a` from a two-entry registry and a
two-entry cache removes `a` and its `a-0` preview, keeps `b` and `b-0`. -/
theorem C9_witness :
    lookupKey (deleteFileRoute (strCodes "a")
      [(strCodes "a", (0 : Nat)), (strCodes "b", 1)]
      [(strCodes "a-0", (10 : Nat)), (strCodes "b-0", 20)]).1 (strCodes "a") = none ∧
    lookupKey (deleteFileRoute (strCodes "a")
      [(strCodes "a", (0 : Nat)), (strCodes "b", 1)]
      [(strCodes "a-0", (10 : Nat)), (strCodes "b-0", 20)]).2 (strCodes "a-0") = none ∧
    lookupKey (deleteFileRoute (strCodes "a")
      [(strCodes "a", (0 : Nat)), (strCodes "b", 1)]
      [(strCodes "a-0", (10 : Nat)), (strCodes "b-0", 20)]).2 (strCodes "b-0") =
      lookupKey [(strCodes "a-0", (10 : Nat)), (strCodes "b-0", 20)] (strCodes "b-0") := by
  have h := C9_delete_route (strCodes "a")
    [(strCodes "a", (0 : Nat)), (strCodes "b", 1)]
    [(strCodes "a-0", (10 : Nat)), (strCodes "b-0", 20)] (by decide)
  have hp := h.1 (by decide)
  exact ⟨hp.1, hp.2.2.1 (strCodes "a-0") (by decide),
    hp.2.2.2 (strCodes "b-0") (by decide)⟩
